import Mathlib

/-!
Verification of the case-processing service (`src/openai.ts`, `src/index.js`).

The input text is modelled as `List Char` (one element per UTF-16 code unit of
the JavaScript string; `String.prototype.length`, `slice` and `lastIndexOf`
all operate on code-unit indices).  JavaScript numbers that hold integer
indices are modelled as `Int` (string indices in this code never leave the
exact-integer range), and the confidence arithmetic is modelled over `ℚ`,
with a dedicated `JSNum.nan` constructor for the one place where the source
can produce `NaN` (division by a zero chunk count).  `Number.parseFloat` of
the confidence capture is modelled as the IEEE-754 binary64 rounding
(round to nearest, ties to even, subnormal floor included) of the exact
decimal value, computed over integers in `parseFloatFrac`.
-/

/-- Normalisation of a (possibly negative) JavaScript `slice` index against a
string of length `len`: a negative index counts from the end and is clamped
at 0, a non-negative one is clamped at `len`. -/
def jsNorm (len : Nat) (i : Int) : Nat :=
  if i < 0 then ((len : Int) + i).toNat else min i.toNat len

/-- JavaScript `String.prototype.slice(start, end)` on a code-unit list. -/
def jsSlice (s : List Char) (start stop : Int) : List Char :=
  (s.take (jsNorm s.length stop)).drop (jsNorm s.length start)

/-- JavaScript `String.prototype.lastIndexOf(pat)`: the largest index at which `pat`
occurs in `s`, or `-1` when it does not occur. -/
def lastIndexOf (s pat : List Char) : Int :=
  match (List.range (s.length + 1)).reverse.find? (fun i => pat.isPrefixOf (s.drop i)) with
  | some i => (i : Int)
  | none => -1

/-- Structure `ProcessingOptions` of `src/openai.ts` (lines 23-27).  The constructor
defaults are `maxTokensPerChunk = 2000`, `overlapTokens = 200`,
`minConfidence = 0.7` (lines 39-44). -/
structure ProcessingOptions where
  maxTokensPerChunk : Nat
  overlapTokens : Nat
  minConfidence : ℚ

/-- The default options installed by the `CaseProcessor` constructor. -/
def defaultOptions : ProcessingOptions :=
  ⟨2000, 200, 7/10⟩

/-- One loop iteration's chunk computation in `splitIntoChunks`
(`src/openai.ts` lines 55-65): slice a `chunkSize` window at `startIndex`;
if the window end is strictly before the text end, truncate at the last
paragraph break (`"\n\n"`) or sentence break (`". "`, keeping the period)
when that break lies strictly past the window's midpoint.  The JavaScript
float comparison `idx > chunk.length / 2` is rendered exactly as
`2 * idx > chunk.length` over `Int`. -/
def chunkAt (text : List Char) (chunkSize : Nat) (startIndex : Int) : List Char :=
  let chunk0 := jsSlice text startIndex (startIndex + chunkSize)
  if startIndex + chunkSize < (text.length : Int) then
    let lastParagraph := lastIndexOf chunk0 ('\n' :: '\n' :: [])
    let lastSentence := lastIndexOf chunk0 ('.' :: ' ' :: [])
    let breakPoint : Int :=
      if 2 * lastParagraph > (chunk0.length : Int) then lastParagraph
      else if 2 * lastSentence > (chunk0.length : Int) then lastSentence + 1
      else (chunk0.length : Int)
    jsSlice chunk0 0 breakPoint
  else chunk0

/-- The `while (startIndex < text.length)` loop of `splitIntoChunks`
(`src/openai.ts` lines 53-69), indexed by fuel: `none` means the loop has
not exited within `fuel` iterations, so `∀ fuel, ... = none` states that the
source loop never terminates.  Each iteration pushes `chunkAt` and advances
the cursor by `chunk.length - overlap` (line 68). -/
def splitLoop (text : List Char) (chunkSize overlap : Nat) :
    Nat → Int → List (List Char) → Option (List (List Char))
  | 0, _, _ => none
  | fuel + 1, startIndex, acc =>
    if startIndex < (text.length : Int) then
      let chunk := chunkAt text chunkSize startIndex
      splitLoop text chunkSize overlap fuel (startIndex + chunk.length - overlap) (acc ++ [chunk])
    else some acc

/-- Embedding of `CaseProcessor.splitIntoChunks` (`src/openai.ts` lines 47-72):
`chunkSize = maxTokensPerChunk * 4`, `overlap = overlapTokens * 4`
(the 1 token ≈ 4 characters approximation of lines 49-50), starting the
loop at index 0 with an empty chunk list. -/
def splitIntoChunksFuel (opts : ProcessingOptions) (text : List Char) (fuel : Nat) :
    Option (List (List Char)) :=
  splitLoop text (opts.maxTokensPerChunk * 4) (opts.overlapTokens * 4) fuel 0 []

/-- A JavaScript number that is either an ordinary (here: rational) value or
`NaN`.  Only the merge's confidence division can produce `NaN` in the
modelled code, via `0 / 0`. -/
inductive JSNum where
  | nan : JSNum
  | val (q : ℚ) : JSNum
deriving DecidableEq

/-- JavaScript division as used at `src/openai.ts` line 161: dividing by a
zero denominator yields `NaN` there (the numerator is the sum of an empty
list, hence 0, and `0 / 0` is `NaN`). -/
def jsDivNum (a b : ℚ) : JSNum :=
  if b = 0 then JSNum.nan else JSNum.val (a / b)

/-- Structure `CaseReference` of `src/openai.ts` (lines 9-13). -/
structure CaseReference where
  lineNumber : Int
  content : String
  context : String
deriving DecidableEq

/-- A `Partial<CaseAnalysis>` as produced per chunk (every field may be
`undefined`, modelled by `Option`); `src/openai.ts` lines 74, 116-134. -/
structure PartialAnalysis where
  summary : Option String := none
  keyPoints : Option (List String) := none
  references : Option (List CaseReference) := none
  nextSteps : Option (List String) := none
  confidence : Option ℚ := none

/-- The merged `CaseAnalysis` of `src/openai.ts` (lines 15-21). -/
structure CaseAnalysis where
  summary : String
  keyPoints : List String
  references : List CaseReference
  nextSteps : List String
  confidence : JSNum

/-- JavaScript `[...new Set(xs)]` on an array of strings: keeps the first occurrence of
each element, in insertion order. -/
def jsSetDedup (l : List String) : List String :=
  l.foldl (fun acc s => if s ∈ acc then acc else acc ++ [s]) []

/-- The pure merge portion of `CaseProcessor.processCase`
(`src/openai.ts` lines 142-185): concatenate the per-chunk `keyPoints`,
`references` and `nextSteps` (each defaulted with `|| []`), average the
confidences (`analysis.confidence || 0`, summed, divided by the number of
chunk analyses), take the final summary from the second completion call
(here a parameter, since that call is external), sort the references by
line number and deduplicate `keyPoints` and `nextSteps` through `Set`. -/
def mergeAnalyses (finalSummary : String) (chunkAnalyses : List PartialAnalysis) :
    CaseAnalysis :=
  let totalConfidence := (chunkAnalyses.map (fun a => a.confidence.getD 0)).sum
  { summary := finalSummary
    keyPoints := jsSetDedup (chunkAnalyses.map (fun a => a.keyPoints.getD [])).flatten
    references := ((chunkAnalyses.map (fun a => a.references.getD [])).flatten).mergeSort
      (fun a b => a.lineNumber ≤ b.lineNumber)
    nextSteps := jsSetDedup (chunkAnalyses.map (fun a => a.nextSteps.getD [])).flatten
    confidence := jsDivNum totalConfidence chunkAnalyses.length }

/-- The code-unit list of the literal prefix matched by the confidence
regular expression `/confidence: (0\.\d+)/` up to its digit part. -/
def confMarker : List Char :=
  "confidence: 0.".toList

/-- The digit run captured by the leftmost match of
`/confidence: (0\.\d+)/` in `content` (`src/openai.ts` line 132): scan left
to right for an occurrence of `confidence: 0.` followed by at least one
digit; the capture's fractional digits are the maximal digit run there.
`none` when the pattern never matches. -/
def findConfDigits : List Char → Option (List Char)
  | [] => none
  | c :: cs =>
    if confMarker.isPrefixOf (c :: cs) then
      let ds := ((c :: cs).drop confMarker.length).takeWhile Char.isDigit
      if ds = [] then findConfDigits cs else some ds
    else findConfDigits cs

/-- Numeric value of a digit string, most significant digit first. -/
def natOfDigits (ds : List Char) : Nat :=
  ds.foldl (fun n c => 10 * n + (c.toNat - '0'.toNat)) 0

/-- Round-half-to-even of the fraction `num / den` to an integer: take the
quotient, round up when the remainder exceeds half the divisor, and break
exact ties toward the even quotient. -/
def rhe (num den : ℕ) : ℕ :=
  if 2 * (num % den) < den then num / den
  else if den < 2 * (num % den) then num / den + 1
  else if num / den % 2 = 0 then num / den else num / den + 1

/-- Smallest `f` with `d ≤ n * 2 ^ f`, searched upward from `f`; the callers
pass fuel `d`, which always suffices since `d ≤ n * 2 ^ d` for `0 < n`
(see `binadeSearch_spec`). -/
def binadeSearch (n d : ℕ) : ℕ → ℕ → ℕ
  | 0, f => f
  | fuel + 1, f => if d ≤ n * 2 ^ f then f else binadeSearch n d fuel (f + 1)

/-- Exponent `g` of the binary64 rounding grid `2 ^ (-g)` for the positive
rational `n / 10 ^ k`: with `f` the smallest exponent satisfying
`2 ^ (-f) ≤ n / 10 ^ k`, a normal number in that binade has unit in the last
place `2 ^ (-(f + 52))` (53 significand bits), floored at the subnormal
limit `2 ^ (-1074)`. -/
def ulpExp (n k : ℕ) : ℕ :=
  min (binadeSearch n (10 ^ k) (10 ^ k) 0 + 52) 1074

/-- IEEE-754 binary64 value (round to nearest, ties to even) of the exact
rational `n / 10 ^ k` with `n < 10 ^ k`: the nearest multiple of the grid
`2 ^ (-ulpExp n k)`, ties toward an even significand.  This is what
`Number.parseFloat` returns on the capture `0.<digits>` — ECMA-262 mandates
the correctly rounded Number value of the decimal's exact mathematical
value (implementations may deviate only beyond 20 significant digits). -/
def parseFloatFrac (n k : ℕ) : ℚ :=
  if n = 0 then 0
  else (rhe (n * 2 ^ ulpExp n k) (10 ^ k) : ℚ) / 2 ^ ulpExp n k

/-- The `confidence` field computed by `parseGPTResponse`
(`src/openai.ts` line 132): `Number.parseFloat` of the capture
`0.<digits>` — the binary64 rounding of `digits / 10 ^ #digits` — and
`parseFloat('0') = 0` when the pattern does not match. -/
def parseConfidence (content : List Char) : ℚ :=
  match findConfDigits content with
  | some ds => parseFloatFrac (natOfDigits ds) ds.length
  | none => 0

/-- Outcome of the `/api/analyze-case` request handler, separating the
early 400 rejection from handing the text to the chunk/analyze/merge
pipeline (reaching the pipeline means chunking begins and completion calls
may be issued). -/
inductive HandlerOutcome where
  | badRequest : HandlerOutcome
  | runPipeline (text : List Char) : HandlerOutcome
deriving DecidableEq

/-- The validated `/api/analyze-case` handler of `src/index.js`
(lines 117-161 of the concatenated file): `if (!caseText) return 400`
rejects an absent (`undefined`) or empty (falsy `""`) body field before any
processor is constructed; any other string goes to `processCase`. -/
def analyzeCaseValidated (caseText : Option (List Char)) : HandlerOutcome :=
  match caseText with
  | none => HandlerOutcome.badRequest
  | some t => if t = [] then HandlerOutcome.badRequest else HandlerOutcome.runPipeline t

/-- The external-call plan of `CaseProcessor.processCase`
(`src/openai.ts` lines 136-178): one `analyzeChunk` completion call per
chunk (via `Promise.all`, line 138-140), then unconditionally one final
summary completion call (line 169). `none` when chunking never terminates,
in which case no calls complete. -/
structure CallPlan where
  chunkCalls : Nat
  summaryCalls : Nat
deriving DecidableEq

def processCaseCallPlan (opts : ProcessingOptions) (text : List Char) (fuel : Nat) :
    Option CallPlan :=
  (splitIntoChunksFuel opts text fuel).map (fun chunks => ⟨chunks.length, 1⟩)

/-- A concrete two-element chunk-analysis list with confidences 1/2 and 1. -/
def sampleAnalyses : List PartialAnalysis :=
  [{ confidence := some (1/2) }, { confidence := some 1 }]

theorem jsNorm_le (len : Nat) (i : Int) : jsNorm len i ≤ len := by
  unfold jsNorm
  split <;> omega

theorem jsNorm_of_nonneg_lt (len : Nat) (i : Int) (h0 : 0 ≤ i) (h : i < (len : Int)) :
    jsNorm len i = i.toNat := by
  unfold jsNorm
  split <;> omega

theorem jsSlice_length (s : List Char) (a b : Int) :
    (jsSlice s a b).length = jsNorm s.length b - jsNorm s.length a := by
  have h := jsNorm_le s.length b
  simp only [jsSlice, List.length_drop, List.length_take]
  omega

theorem jsSlice_zero_eq_take (s : List Char) (b : Int) :
    jsSlice s 0 b = s.take (jsNorm s.length b) := by
  simp [jsSlice, jsNorm]

theorem chunkAt_length_le_slice (text : List Char) (cs : Nat) (s : Int) :
    (chunkAt text cs s).length ≤ (jsSlice text s (s + cs)).length := by
  unfold chunkAt
  split
  · rw [jsSlice_zero_eq_take]
    simp [List.length_take]
  · exact Nat.le_refl _

/-- With a positive overlap, one loop iteration leaves the cursor strictly
below the text length: the pushed chunk never reaches past the end of the
text, so subtracting the overlap keeps the cursor short of it. -/
theorem chunkAt_cursor_lt (text : List Char) (cs ov : Nat) (s : Int)
    (hs : s < (text.length : Int)) (hov : 1 ≤ ov) :
    s + ((chunkAt text cs s).length : Int) - ov < (text.length : Int) := by
  have h := chunkAt_length_le_slice text cs s
  rw [jsSlice_length] at h
  unfold jsNorm at h
  split at h <;> split at h <;> omega

theorem chunkAt_le_budget (text : List Char) (cs : Nat) (s : Int) :
    (chunkAt text cs s).length ≤ cs := by
  have h := chunkAt_length_le_slice text cs s
  rw [jsSlice_length] at h
  unfold jsNorm at h
  split at h <;> split at h <;> omega

/-- A chunk cut at a non-negative cursor position is a prefix of the text's
remainder from that position. -/
theorem chunkAt_isPrefix_drop (text : List Char) (cs : Nat) (s : Int)
    (h0 : 0 ≤ s) (hs : s < (text.length : Int)) :
    List.IsPrefix (chunkAt text cs s) (text.drop s.toNat) := by
  have hsl : List.IsPrefix (jsSlice text s (s + cs)) (text.drop s.toNat) := by
    unfold jsSlice
    rw [jsNorm_of_nonneg_lt text.length s h0 hs, List.drop_take]
    exact List.take_prefix _ _
  unfold chunkAt
  split
  · refine List.IsPrefix.trans ?_ hsl
    rw [jsSlice_zero_eq_take]
    exact List.take_prefix _ _
  · exact hsl

/-- The `splitIntoChunks` loop never exits when the overlap is positive and
the cursor starts below the text length: the exit condition
`startIndex ≥ text.length` is unreachable. -/
theorem splitLoop_nonterm (text : List Char) (cs ov : Nat) (hov : 1 ≤ ov) :
    ∀ (fuel : Nat) (s : Int) (acc : List (List Char)), s < (text.length : Int) →
      splitLoop text cs ov fuel s acc = none := by
  intro fuel
  induction fuel with
  | zero => intro s acc _; rfl
  | succ n ih =>
    intro s acc hs
    simp only [splitLoop]
    rw [if_pos hs]
    exact ih _ _ (chunkAt_cursor_lt text cs ov s hs hov)

/-- With overlap 0 the loop maintains the invariant `acc.flatten =
text.take startIndex`: each pushed chunk is the exact continuation of the
text at the cursor, so a successful run tiles the whole text. -/
theorem splitLoop_join (text : List Char) (cs : Nat) :
    ∀ (fuel : Nat) (s : Int) (acc res : List (List Char)),
      0 ≤ s →
      acc.flatten = text.take s.toNat →
      splitLoop text cs 0 fuel s acc = some res →
      res.flatten = text := by
  intro fuel
  induction fuel with
  | zero =>
    intro s acc res _ _ h
    simp [splitLoop] at h
  | succ n ih =>
    intro s acc res h0 hacc h
    simp only [splitLoop] at h
    by_cases hs : s < (text.length : Int)
    · rw [if_pos hs] at h
      refine ih _ _ _ ?_ ?_ h
      · have := (chunkAt text cs s).length
        omega
      · have hpre := chunkAt_isPrefix_drop text cs s h0 hs
        have hc := List.prefix_iff_eq_take.mp hpre
        have htn : (s + ((chunkAt text cs s).length : Int) - ((0 : Nat) : Int)).toNat
            = s.toNat + (chunkAt text cs s).length := by omega
        simp only [List.flatten_append, List.flatten_cons, List.flatten_nil, List.append_nil]
        rw [hacc, htn, List.take_add, ← hc]
    · rw [if_neg hs] at h
      obtain rfl := Option.some.inj h
      rw [hacc]
      exact List.take_of_length_le (by omega)

theorem splitLoop_length_le (text : List Char) (cs ov : Nat) :
    ∀ (fuel : Nat) (s : Int) (acc res : List (List Char)),
      (∀ c ∈ acc, c.length ≤ cs) →
      splitLoop text cs ov fuel s acc = some res →
      ∀ c ∈ res, c.length ≤ cs := by
  intro fuel
  induction fuel with
  | zero =>
    intro s acc res _ h
    simp [splitLoop] at h
  | succ n ih =>
    intro s acc res hacc h
    simp only [splitLoop] at h
    by_cases hs : s < (text.length : Int)
    · rw [if_pos hs] at h
      refine ih _ _ _ ?_ h
      intro c hc
      rcases List.mem_append.mp hc with h1 | h1
      · exact hacc c h1
      · rw [List.mem_singleton.mp h1]
        exact chunkAt_le_budget text cs s
    · rw [if_neg hs] at h
      obtain rfl := Option.some.inj h
      exact hacc

/-- C1: code bug. With the constructor's default options
(`overlapTokens = 200`, hence overlap 800 > 0) `splitIntoChunks` never
terminates on the nonempty input `"hello"`: the cursor can never reach the
text length, and the source raises no fatal configuration error — it simply
loops without advancing. -/
theorem splitIntoChunks_default_nonterminating (fuel : Nat) :
    splitIntoChunksFuel defaultOptions "hello".toList fuel = none :=
  splitLoop_nonterm "hello".toList (2000 * 4) (200 * 4) (by omega) fuel 0 [] (by decide)

/-- C2: code bug. `"hi"` is far shorter than the default 8000-character
chunk size, yet `splitIntoChunks` does not return the single chunk
`["hi"]`: it never returns at all, because after pushing the full text the
cursor moves to `2 - 800 < 2` and can never reach the text length. -/
theorem splitIntoChunks_short_text_nonterminating (fuel : Nat) :
    splitIntoChunksFuel defaultOptions "hi".toList fuel = none :=
  splitLoop_nonterm "hi".toList (2000 * 4) (200 * 4) (by omega) fuel 0 [] (by decide)

/-- C3: whenever `splitIntoChunks` returns a chunk list, the chunks
concatenate exactly to the input text, so every character position of the
input is inside some chunk's covered range — overlap is permitted by the
claim and a gap never occurs. -/
theorem splitIntoChunks_covers (opts : ProcessingOptions) (text : List Char)
    (fuel : Nat) (res : List (List Char))
    (h : splitIntoChunksFuel opts text fuel = some res) :
    res.flatten = text := by
  unfold splitIntoChunksFuel at h
  by_cases hov : opts.overlapTokens * 4 = 0
  · rw [hov] at h
    exact splitLoop_join text (opts.maxTokensPerChunk * 4) fuel 0 [] res le_rfl (by simp) h
  · cases text with
    | nil =>
      cases fuel with
      | zero => simp [splitLoop] at h
      | succ n =>
        simp only [splitLoop] at h
        rw [if_neg (by simp)] at h
        obtain rfl := Option.some.inj h
        rfl
    | cons c rest =>
      have hn := splitLoop_nonterm (c :: rest) (opts.maxTokensPerChunk * 4)
        (opts.overlapTokens * 4) (by omega) fuel 0 []
        (by simp only [List.length_cons]; omega)
      rw [hn] at h
      exact Option.noConfusion h

/-- Witness for C3: a concrete terminating run whose chunks tile the
input. -/
theorem splitIntoChunks_covers_witness :
    splitIntoChunksFuel ⟨1, 0, 7/10⟩ "abcde".toList 3 = some ["abcd".toList, "e".toList] ∧
    (["abcd".toList, "e".toList] : List (List Char)).flatten = "abcde".toList :=
  ⟨by decide, splitIntoChunks_covers ⟨1, 0, 7/10⟩ "abcde".toList 3 _ (by decide)⟩

/-- C8: every chunk in a list returned by `splitIntoChunks` has length at
most the configured budget `maxTokensPerChunk * 4`. -/
theorem splitIntoChunks_chunk_length_le (opts : ProcessingOptions) (text : List Char)
    (fuel : Nat) (res : List (List Char))
    (h : splitIntoChunksFuel opts text fuel = some res) :
    ∀ c ∈ res, c.length ≤ opts.maxTokensPerChunk * 4 := by
  unfold splitIntoChunksFuel at h
  exact splitLoop_length_le text _ _ fuel 0 [] res (by simp) h

/-- Witness for C8: a concrete run whose two chunks respect the 4-character
budget of `maxTokensPerChunk = 1`. -/
theorem splitIntoChunks_chunk_length_le_witness :
    splitIntoChunksFuel ⟨1, 0, 7/10⟩ "hello".toList 3 = some ["hell".toList, "o".toList] ∧
    ∀ c ∈ (["hell".toList, "o".toList] : List (List Char)), c.length ≤ 1 * 4 :=
  ⟨by decide, splitIntoChunks_chunk_length_le ⟨1, 0, 7/10⟩ "hello".toList 3 _ (by decide)⟩

/-- C10: on the empty input the chunker immediately returns the empty chunk
list, so `processCase` issues zero per-chunk completion calls and still
exactly one final summary completion call. -/
theorem splitIntoChunks_empty_callPlan (opts : ProcessingOptions) (fuel : Nat) :
    splitIntoChunksFuel opts [] (fuel + 1) = some [] ∧
    processCaseCallPlan opts [] (fuel + 1) = some ⟨0, 1⟩ := by
  have h : splitIntoChunksFuel opts [] (fuel + 1) = some [] := by
    unfold splitIntoChunksFuel
    simp [splitLoop]
  exact ⟨h, by simp [processCaseCallPlan, h]⟩

theorem jsSetDedup_foldl_nodup (l : List String) :
    ∀ acc : List String, acc.Nodup →
      (l.foldl (fun acc s => if s ∈ acc then acc else acc ++ [s]) acc).Nodup := by
  induction l with
  | nil => intro acc h; exact h
  | cons x xs ih =>
    intro acc h
    simp only [List.foldl_cons]
    by_cases hx : x ∈ acc
    · rw [if_pos hx]
      exact ih acc h
    · rw [if_neg hx]
      refine ih _ ?_
      rw [List.nodup_append]
      refine ⟨h, List.nodup_singleton x, ?_⟩
      intro a ha hax
      rw [List.mem_singleton.mp hax] at ha
      exact hx ha

theorem jsSetDedup_nodup (l : List String) : (jsSetDedup l).Nodup :=
  jsSetDedup_foldl_nodup l [] List.nodup_nil

/-- C6: the merged `keyPoints` and `nextSteps` lists contain no duplicate
entries, for every list of chunk analyses. -/
theorem mergeAnalyses_nodup (finalSummary : String) (l : List PartialAnalysis) :
    (mergeAnalyses finalSummary l).keyPoints.Nodup ∧
    (mergeAnalyses finalSummary l).nextSteps.Nodup :=
  ⟨jsSetDedup_nodup _, jsSetDedup_nodup _⟩

/-- C4: for a nonempty chunk-analysis list whose confidences all lie in
[0,1], the merged confidence is exactly the arithmetic mean of the partial
confidences, and the mean lies in [0,1]. -/
theorem mergeAnalyses_confidence_mean (finalSummary : String) (l : List PartialAnalysis)
    (hne : l ≠ [])
    (hc : ∀ a ∈ l, ∃ c, a.confidence = some c ∧ 0 ≤ c ∧ c ≤ 1) :
    (mergeAnalyses finalSummary l).confidence =
      JSNum.val ((l.map (fun a => a.confidence.getD 0)).sum / (l.length : ℚ)) ∧
    0 ≤ (l.map (fun a => a.confidence.getD 0)).sum / (l.length : ℚ) ∧
    (l.map (fun a => a.confidence.getD 0)).sum / (l.length : ℚ) ≤ 1 := by
  have h0 : l.length ≠ 0 := fun h => hne (List.length_eq_zero.mp h)
  have hlen : (l.length : ℚ) ≠ 0 := Nat.cast_ne_zero.mpr h0
  have hpos : (0 : ℚ) < l.length := lt_of_le_of_ne (Nat.cast_nonneg _) (Ne.symm hlen)
  have hnonneg : 0 ≤ (l.map (fun a => a.confidence.getD 0)).sum := by
    apply List.sum_nonneg
    intro x hx
    obtain ⟨a, ha, rfl⟩ := List.mem_map.mp hx
    obtain ⟨c, hc1, hc2, _⟩ := hc a ha
    rw [hc1]
    exact hc2
  have hsum_le : (l.map (fun a => a.confidence.getD 0)).sum ≤ (l.length : ℚ) := by
    have hb : ∀ x ∈ l.map (fun a => a.confidence.getD 0), x ≤ (1 : ℚ) := by
      intro x hx
      obtain ⟨a, ha, rfl⟩ := List.mem_map.mp hx
      obtain ⟨c, hc1, _, hc3⟩ := hc a ha
      rw [hc1]
      exact hc3
    have := List.sum_le_card_nsmul (l.map (fun a => a.confidence.getD 0)) 1 hb
    simpa using this
  refine ⟨?_, div_nonneg hnonneg (le_of_lt hpos), (div_le_one hpos).mpr hsum_le⟩
  show jsDivNum _ _ = _
  unfold jsDivNum
  rw [if_neg hlen]

/-- Witness for C4 at a concrete pair of analyses with confidences 1/2
and 1: the merged confidence is their mean 3/4. -/
theorem mergeAnalyses_confidence_mean_witness :
    sampleAnalyses ≠ [] ∧
    (∀ a ∈ sampleAnalyses, ∃ c, a.confidence = some c ∧ 0 ≤ c ∧ c ≤ 1) ∧
    (mergeAnalyses "" sampleAnalyses).confidence =
      JSNum.val ((sampleAnalyses.map (fun a => a.confidence.getD 0)).sum /
        (sampleAnalyses.length : ℚ)) := by
  have h1 : sampleAnalyses ≠ [] := by simp [sampleAnalyses]
  have h2 : ∀ a ∈ sampleAnalyses, ∃ c, a.confidence = some c ∧ 0 ≤ c ∧ c ≤ 1 := by
    intro a ha
    rcases List.mem_cons.mp ha with rfl | ha2
    · exact ⟨1/2, rfl, by norm_num, by norm_num⟩
    · rcases List.mem_cons.mp ha2 with rfl | ha3
      · exact ⟨1, rfl, by norm_num, by norm_num⟩
      · exact absurd ha3 (List.not_mem_nil a)
  exact ⟨h1, h2, (mergeAnalyses_confidence_mean "" sampleAnalyses h1 h2).1⟩

/-- C5: code bug evidence — on an empty chunk-analysis list the merge
computes `0 / 0` for the confidence, silently producing `NaN`; no error
path exists in the source. -/
theorem mergeAnalyses_empty_confidence_nan (finalSummary : String) :
    (mergeAnalyses finalSummary []).confidence = JSNum.nan := by
  simp [mergeAnalyses, jsDivNum]

theorem char_digit_val_le (c : Char) (h : c.isDigit = true) :
    c.toNat - Char.toNat '0' ≤ 9 := by
  simp [Char.isDigit, UInt32.le_def, Fin.le_def, BitVec.le_def] at h
  simp [Char.toNat, UInt32.toNat]
  omega

theorem natOfDigits_foldl_lt (ds : List Char) (h : ∀ c ∈ ds, c.isDigit = true) :
    ∀ n : Nat, ds.foldl (fun n c => 10 * n + (c.toNat - Char.toNat '0')) n <
      (n + 1) * 10 ^ ds.length := by
  induction ds with
  | nil =>
    intro n
    simp
  | cons c cs ih =>
    intro n
    have hd : c.toNat - Char.toNat '0' ≤ 9 := char_digit_val_le c (h c (List.mem_cons_self c cs))
    have hcs : ∀ x ∈ cs, x.isDigit = true := fun x hx => h x (List.mem_cons_of_mem c hx)
    simp only [List.foldl_cons, List.length_cons]
    have step := ih hcs (10 * n + (c.toNat - Char.toNat '0'))
    have hmul : (10 * n + (c.toNat - Char.toNat '0') + 1) ≤ (n + 1) * 10 := by omega
    have heq : ((n + 1) * 10) * 10 ^ cs.length = (n + 1) * 10 ^ (cs.length + 1) := by
      rw [pow_succ]
      ring
    exact lt_of_lt_of_le step (heq ▸ Nat.mul_le_mul_right _ hmul)

theorem natOfDigits_lt (ds : List Char) (h : ∀ c ∈ ds, c.isDigit = true) :
    natOfDigits ds < 10 ^ ds.length := by
  have := natOfDigits_foldl_lt ds h 0
  simpa [natOfDigits] using this

theorem findConfDigits_digits (content ds : List Char)
    (h : findConfDigits content = some ds) : ∀ c ∈ ds, c.isDigit = true := by
  induction content with
  | nil => simp [findConfDigits] at h
  | cons c cs ih =>
    rw [findConfDigits] at h
    by_cases hp : confMarker.isPrefixOf (c :: cs)
    · rw [if_pos hp] at h
      by_cases hd : ((c :: cs).drop confMarker.length).takeWhile Char.isDigit = []
      · rw [if_pos hd] at h
        exact ih h
      · rw [if_neg hd] at h
        obtain rfl := Option.some.inj h
        intro x hx
        exact List.mem_takeWhile_imp hx
    · rw [if_neg hp] at h
      exact ih h

/-- The binade search with fuel `d` and a positive `n` returns the smallest
`f` with `d ≤ n * 2 ^ f`, so `ulpExp` uses the true binade of `n / d`. -/
theorem binadeSearch_spec (n d : ℕ) (hn : 0 < n) :
    d ≤ n * 2 ^ binadeSearch n d d 0 ∧
    ∀ i < binadeSearch n d d 0, n * 2 ^ i < d := by
  have key : ∀ (fuel f : ℕ), (∃ j, f ≤ j ∧ j ≤ f + fuel ∧ d ≤ n * 2 ^ j) →
      d ≤ n * 2 ^ binadeSearch n d fuel f ∧
      ∀ i, f ≤ i → i < binadeSearch n d fuel f → n * 2 ^ i < d := by
    intro fuel
    induction fuel with
    | zero =>
      intro f hex
      obtain ⟨j, hj1, hj2, hj3⟩ := hex
      obtain rfl : j = f := by omega
      exact ⟨hj3, fun i h1 h2 => absurd (lt_of_le_of_lt h1 h2) (lt_irrefl _)⟩
    | succ m ih =>
      intro f hex
      rw [binadeSearch]
      by_cases hf : d ≤ n * 2 ^ f
      · rw [if_pos hf]
        exact ⟨hf, fun i h1 h2 => absurd (lt_of_le_of_lt h1 h2) (lt_irrefl f)⟩
      · rw [if_neg hf]
        obtain ⟨j, hj1, hj2, hj3⟩ := hex
        have hjf : j ≠ f := fun h => hf (h ▸ hj3)
        have hrec := ih (f + 1) ⟨j, by omega, by omega, hj3⟩
        refine ⟨hrec.1, fun i h1 h2 => ?_⟩
        rcases Nat.eq_or_lt_of_le h1 with rfl | h1a
        · omega
        · exact hrec.2 i h1a h2
  have hex : ∃ j, 0 ≤ j ∧ j ≤ 0 + d ∧ d ≤ n * 2 ^ j := by
    refine ⟨d, Nat.zero_le d, by omega, ?_⟩
    calc d ≤ 2 ^ d := Nat.le_of_lt (Nat.lt_two_pow d)
    _ ≤ n * 2 ^ d := Nat.le_mul_of_pos_left _ hn
  have h := key d 0 hex
  exact ⟨h.1, fun i hi => h.2 i (Nat.zero_le i) hi⟩

/-- Round-half-to-even never rounds past a bound that the exact fraction is
strictly below. -/
theorem rhe_le (num den bound : ℕ) (hden : 0 < den) (h : num < den * bound) :
    rhe num den ≤ bound := by
  have h0 : num / den < bound := by
    rw [Nat.div_lt_iff_lt_mul hden, Nat.mul_comm]
    exact h
  unfold rhe
  split
  · omega
  · split
    · omega
    · split <;> omega

theorem parseFloatFrac_mem_unit (n k : ℕ) (h : n < 10 ^ k) :
    0 ≤ parseFloatFrac n k ∧ parseFloatFrac n k ≤ 1 := by
  unfold parseFloatFrac
  split
  · norm_num
  · constructor
    · positivity
    · rw [div_le_one (by positivity)]
      have hm : rhe (n * 2 ^ ulpExp n k) (10 ^ k) ≤ 2 ^ ulpExp n k := by
        apply rhe_le
        · positivity
        · exact (Nat.mul_lt_mul_right (Nat.pow_pos (by norm_num))).mpr h
      exact_mod_cast hm

/-- C9 counterexample: on a response containing
`confidence: 0.99999999999999999` (seventeen nines), the exact value
`1 - 10 ^ (-17)` is within half an ulp of 1 (half-ulp `2 ^ (-54) ≈`
`5.55 * 10 ^ (-17)`), so `Number.parseFloat` rounds the capture to exactly
1.0: the parsed confidence equals 1 and does not lie in the half-open
interval [0,1). -/
theorem parseConfidence_attains_one :
    parseConfidence "confidence: 0.99999999999999999".toList = 1 ∧
    ¬ parseConfidence "confidence: 0.99999999999999999".toList < 1 := by
  have h1 : findConfDigits "confidence: 0.99999999999999999".toList =
      some "99999999999999999".toList := by decide
  have heq : parseConfidence "confidence: 0.99999999999999999".toList =
      parseFloatFrac (natOfDigits "99999999999999999".toList)
        ("99999999999999999".toList).length := by
    unfold parseConfidence
    rw [h1]
  have h2 : natOfDigits "99999999999999999".toList = 99999999999999999 := by decide
  have h3 : ("99999999999999999".toList).length = 17 := by decide
  have hu : ulpExp 99999999999999999 17 = 53 := by decide
  have hr : rhe (99999999999999999 * 2 ^ 53) (10 ^ 17) = 9007199254740992 := by decide
  have hval : parseFloatFrac 99999999999999999 17 = 1 := by
    unfold parseFloatFrac
    rw [if_neg (by norm_num), hu, hr]
    norm_num
  rw [heq, h2, h3, hval]
  exact ⟨rfl, lt_irrefl 1⟩

/-- C9 amended: the confidence extracted by `parseGPTResponse` always lies
in the closed interval [0,1]: a match contributes the binary64 rounding of
`0.<digits>`, which can attain 1 when the digits are within half an ulp of
1, and a missing match defaults to 0. -/
theorem parseConfidence_mem_unit (content : List Char) :
    0 ≤ parseConfidence content ∧ parseConfidence content ≤ 1 := by
  unfold parseConfidence
  cases hf : findConfDigits content with
  | none => norm_num
  | some ds =>
    exact parseFloatFrac_mem_unit (natOfDigits ds) ds.length
      (natOfDigits_lt ds (findConfDigits_digits content ds hf))

/-- C7 counterexample: the source has no size ceiling.  A 1,000,001
character input — beyond the specification's example hard ceiling of
1,000,000 characters — is not rejected with InvalidInput: the validated
handler passes it straight to the pipeline, where chunking begins. -/
theorem analyzeCase_oversized_not_rejected :
    analyzeCaseValidated (some (List.replicate 1000001 'a')) =
      HandlerOutcome.runPipeline (List.replicate 1000001 'a') := by
  show (if List.replicate 1000001 'a' = ([] : List Char) then HandlerOutcome.badRequest
    else HandlerOutcome.runPipeline (List.replicate 1000001 'a')) =
    HandlerOutcome.runPipeline (List.replicate 1000001 'a')
  rw [if_neg]
  intro h
  have hlen := congrArg List.length h
  rw [List.length_replicate, List.length_nil] at hlen
  exact Nat.noConfusion hlen

/-- C7 amended: in the `/api/analyze-case` handler that performs validation,
a request whose `caseText` is missing or empty is rejected with HTTP 400
before any processor is constructed, hence before any external completion
call; no hard size ceiling is enforced anywhere. -/
theorem analyzeCase_empty_badRequest (caseText : Option (List Char))
    (h : caseText = none ∨ caseText = some []) :
    analyzeCaseValidated caseText = HandlerOutcome.badRequest := by
  rcases h with rfl | rfl
  · rfl
  · rfl

/-- Witness for the amended C7: the empty `caseText` is rejected. -/
theorem analyzeCase_empty_badRequest_witness :
    ((some [] : Option (List Char)) = none ∨ (some [] : Option (List Char)) = some []) ∧
    analyzeCaseValidated (some []) = HandlerOutcome.badRequest :=
  ⟨Or.inr rfl, analyzeCase_empty_badRequest (some []) (Or.inr rfl)⟩
